import Mathlib

/-!
Verification of the duplicate-image-detector engine
(`image_duplication_detector.py`).

Shallow embedding conventions:

* A path component (file or directory name) is a `List Char`; a filesystem
  path is a list of components from the root.  `os.path.commonpath` on two
  paths is the longest common component prefix, and `os.path.join(dir, name)`
  is `dir ++ [name]`.
* The filesystem is the list of paths of the regular files that exist.
  `shutil.move(f, dest)` with `dest` a directory moves `f` to
  `dest ++ [basename f]`; it fails when the source is missing or the target
  already exists, exactly as `shutil.move` raises in those situations.
* Python's insertion-ordered `dict` with
  `d.setdefault(k, []).append(p)` is an association list with unique keys,
  updated in place and extended at the end for fresh keys (`dictInsert`).
* Per-file fingerprinting (`hashlib` digest / PIL decode) is abstracted as a
  function `Path → Except FileErr Fingerprint`; the control flow around it
  (`try`/`except` placement, progress emission) is translated literally from
  each strategy method.
* Progress values are exact rationals.  Python's `round(x, 2)` is modelled by
  `round2` (round half up to two decimals over ℚ; CPython rounds the nearest
  binary float half to even, a difference visible only at exact decimal ties,
  which no claim exercises).
-/

namespace ImageDup

/-- A single path component (a file or directory name). -/
abbrev PathName := List Char

/-- A filesystem path: the list of components from the root. -/
abbrev FilePath' := List PathName

/-- The filesystem: the list of (paths of) existing regular files. -/
abbrev FS := List FilePath'

/-- A strategy-specific fingerprint string. -/
abbrev Fingerprint := List Char

/-- `img_hashes_dict`: insertion-ordered fingerprint → file-group mapping. -/
abbrev DuplicateIndex := List (Fingerprint × List FilePath')

/-- `os.path.commonpath([p, q])`: longest common component prefix. -/
def commonpath : FilePath' → FilePath' → FilePath'
  | a :: as, b :: bs => if a = b then a :: commonpath as bs else []
  | _, _ => []

/-- `os.path.basename`: last component of a path. -/
def basename (p : FilePath') : PathName := p.getLastD []

/-- Failure modes of `shutil.move`. -/
inductive MoveErr where
  /-- The source file does not exist (`FileNotFoundError`). -/
  | srcMissing
  /-- The target path already exists (`shutil.Error`). -/
  | dstExists
deriving DecidableEq, Repr

/-- `shutil.move(f, dest)` with `dest` an existing directory: rename `f` to
`dest ++ [basename f]`; raise if the source is gone or the target exists. -/
def shutil_move (fs : FS) (f : FilePath') (dest : FilePath') : Except MoveErr FS :=
  if f ∈ fs then
    if dest ++ [basename f] ∈ fs then .error .dstExists
    else .ok (fs.erase f ++ [dest ++ [basename f]])
  else .error .srcMissing

/-- The mutable state touched by `move_duplicates`: the filesystem, the
`moved_number` counter, the `moved_files` list and the `duplicates_found`
flag. -/
structure RState where
  fs : FS
  movedNumber : Nat
  movedFiles : List FilePath'
  duplicatesFound : Bool
deriving DecidableEq, Repr

/-- The code's per-file guard, as a Boolean:
`not os.path.commonpath([f, dest_folder]) == dest_folder`. -/
def notUnderDest (dest f : FilePath') : Bool := decide (commonpath f dest ≠ dest)

/-- Inner loop of `move_duplicates` over one duplicate group: skip members
already under the destination, otherwise `shutil.move` them (an exception
propagates, carrying the failing file and the state at failure). -/
def moveGroup (dest : FilePath') : List FilePath' → RState → Except (FilePath' × RState) RState
  | [], st => .ok st
  | f :: rest, st =>
    if commonpath f dest = dest then moveGroup dest rest st
    else
      match shutil_move st.fs f dest with
      | .error _ => .error (f, st)
      | .ok fs' =>
        moveGroup dest rest
          { st with fs := fs', movedNumber := st.movedNumber + 1,
                    movedFiles := st.movedFiles ++ [f] }

/-- Outer loop of `move_duplicates` over `img_hashes_dict.items()`: groups
with more than one member set `duplicates_found` and have their members
processed; singleton groups are skipped. -/
def moveGroupsAux (dest : FilePath') : DuplicateIndex → RState → Except (FilePath' × RState) RState
  | [], st => .ok st
  | (_, files) :: rest, st =>
    if 1 < files.length then
      match moveGroup dest files { st with duplicatesFound := true } with
      | .error e => .error e
      | .ok st' => moveGroupsAux dest rest st'
    else moveGroupsAux dest rest st

/-- `move_duplicates`, started from `moved_number = 0`, `moved_files = []`
and `duplicates_found = False` (each strategy resets the flag before the
relocation step runs). -/
def move_duplicates (idx : DuplicateIndex) (dest : FilePath') (fs0 : FS) :
    Except (FilePath' × RState) RState :=
  moveGroupsAux dest idx { fs := fs0, movedNumber := 0, movedFiles := [], duplicatesFound := false }

/-- The files `move_duplicates` attempts to move, in attempt order: the
not-under-destination members of the groups with more than one member. -/
def attemptedMoves (dest : FilePath') (idx : DuplicateIndex) : List FilePath' :=
  ((idx.filter fun g => decide (1 < g.2.length)).map fun g =>
    g.2.filter (notUnderDest dest)).flatten

/-- The final feedback message of `move_duplicates`. -/
inductive Summary where
  /-- "No duplicates found." -/
  | noDuplicates
  /-- "`movedNumber` duplicates found." -/
  | duplicates (movedNumber : Nat)
deriving DecidableEq, Repr

/-- The summary reported after relocation, from the final state. -/
def scanSummary (st : RState) : Summary :=
  if st.duplicatesFound then .duplicates st.movedNumber else .noDuplicates

/-! ### Fingerprinting strategies -/

/-- A per-file fingerprint failure (unreadable file / undecodable image). -/
inductive FileErr where
  | unreadable
deriving DecidableEq, Repr

/-- A fingerprinting primitive: `compute_file_hash` /
`imagehash.average_hash` / `calculate_mean_color_hash`, abstracted over the
file contents. -/
abbrev HashFn := FilePath' → Except FileErr Fingerprint

/-- `self.img_hashes_dict.setdefault(img_hash, []).append(file)` on an
insertion-ordered dict with unique keys. -/
def dictInsert : DuplicateIndex → Fingerprint → FilePath' → DuplicateIndex
  | [], k, p => [(k, [p])]
  | (k', g) :: rest, k, p =>
    if k' = k then (k', g ++ [p]) :: rest
    else (k', g) :: dictInsert rest k p

/-- Python `round(q, 2)` over exact rationals (round half up). -/
def round2 (q : ℚ) : ℚ := (⌊q * 100 + 1 / 2⌋ : ℚ) / 100

/-- Loop shared verbatim by `exact_match_hashing` and `perceptual_hashing`:
the whole `for` loop sits inside one `try`, so the first per-file failure
aborts the loop, keeping the dict built so far and emitting nothing further.
On success the file is inserted and `round((i + 1) / total * 100, 2)` is
emitted. -/
def hashLoopAbort (hash : HashFn) (total : Nat) :
    List FilePath' → Nat → DuplicateIndex → DuplicateIndex × List ℚ
  | [], _, d => (d, [])
  | f :: rest, i, d =>
    match hash f with
    | .error _ => (d, [])
    | .ok h =>
      let r := hashLoopAbort hash total rest (i + 1) (dictInsert d h f)
      (r.1, round2 (((i : ℚ) + 1) / (total : ℚ) * 100) :: r.2)

/-- Loop of `mean_color_hash`: the `try` is inside the `for`, so a per-file
failure skips only that file (no insertion, no emission) and the loop
continues with the remaining files. -/
def hashLoopSkip (hash : HashFn) (total : Nat) :
    List FilePath' → Nat → DuplicateIndex → DuplicateIndex × List ℚ
  | [], _, d => (d, [])
  | f :: rest, i, d =>
    match hash f with
    | .error _ => hashLoopSkip hash total rest (i + 1) d
    | .ok h =>
      let r := hashLoopSkip hash total rest (i + 1) (dictInsert d h f)
      (r.1, round2 (((i : ℚ) + 1) / (total : ℚ) * 100) :: r.2)

/-- `exact_match_hashing`: clears the dict, then runs the abort-on-failure
loop; returns the final dict and the emitted progress values. -/
def exact_match_hashing (hash : HashFn) (files : List FilePath') :
    DuplicateIndex × List ℚ :=
  hashLoopAbort hash files.length files 0 []

/-- `perceptual_hashing`: identical control flow to `exact_match_hashing`
(one `try` around the whole loop), with the average-hash primitive. -/
def perceptual_hashing (hash : HashFn) (files : List FilePath') :
    DuplicateIndex × List ℚ :=
  hashLoopAbort hash files.length files 0 []

/-- `mean_color_hash`: clears the dict, then runs the skip-on-failure loop. -/
def mean_color_hash (hash : HashFn) (files : List FilePath') :
    DuplicateIndex × List ℚ :=
  hashLoopSkip hash files.length files 0 []

/-- All file paths stored in the index, in group-then-member order. -/
def pathsOf (d : DuplicateIndex) : List FilePath' :=
  (d.map Prod.snd).flatten

/-- Whether fingerprinting a file succeeds (no exception raised). -/
def hashOk (hash : HashFn) (f : FilePath') : Bool :=
  match hash f with
  | .ok _ => true
  | .error _ => false

/-! ### File enumeration (`load_file_paths`) and scan start (`execute_search`) -/

/-- The fixed allow-list of extensions, without the dot. -/
def allowedExts : List (List Char) :=
  [['p','n','g'], ['j','p','g'], ['j','p','e','g'], ['b','m','p'],
   ['g','i','f'], ['t','i','f','f']]

/-- The suffixes tested by `file.lower().endswith((".png", ".jpg", ".jpeg",
".bmp", ".gif", ".tiff"))`. -/
def allowedSuffixes : List (List Char) := allowedExts.map (fun e => '.' :: e)

/-- `str.lower()` on a file name. -/
def lowerName (n : PathName) : PathName := n.map Char.toLower

/-- `file.lower().endswith(tuple_of_suffixes)`. -/
def endswithAllowed (n : PathName) : Bool :=
  allowedSuffixes.any fun s => decide (s <:+ lowerName n)

/-- The extension of a file name: the part after the last dot, when the name
contains a dot. -/
def extensionOf (n : PathName) : Option PathName :=
  if '.' ∈ n then some ((n.reverse.takeWhile fun c => c != '.').reverse) else none

/-- `load_file_paths`: keep the regular files directly inside the source
directory (`os.listdir` + `os.path.isfile`), then the allow-listed
extensions, joining each name to the source path. -/
def load_file_paths (isFile : FilePath' → Bool) (listing : List PathName)
    (src : FilePath') : List FilePath' :=
  ((listing.filter fun f => isFile (src ++ [f])).filter
    fun f => endswithAllowed f).map fun f => src ++ [f]

/-- The fatal configuration error of `execute_search`. -/
inductive ScanError where
  | invalidConfiguration
deriving DecidableEq, Repr

/-- What `execute_search` did before handing off: the enumerated file list
(`none` when enumeration never ran) and whether a worker thread was
started. -/
structure ScanStart where
  enumerated : Option (List FilePath')
  workerStarted : Bool
deriving DecidableEq, Repr

/-- `execute_search`: only when both folders are directories and they differ
does it enumerate; an empty enumeration returns without starting a worker;
otherwise the worker thread is started.  A violated precondition produces
the configuration error with no enumeration, leaving the orchestrator
idle. -/
def execute_search (isDir : FilePath' → Bool) (isFile : FilePath' → Bool)
    (listing : List PathName) (src dest : FilePath') : Except ScanError ScanStart :=
  if (isDir src && isDir dest) && decide (dest ≠ src) then
    let files := load_file_paths isFile listing src
    if files.isEmpty then .ok ⟨some files, false⟩
    else .ok ⟨some files, true⟩
  else .error .invalidConfiguration

/-! ### Mean-color fingerprint (`calculate_mean_color_hash`) -/

/-- One RGB pixel of the decoded image (each channel an 8-bit value). -/
structure RGB where
  r : Nat
  g : Nat
  b : Nat
deriving DecidableEq, Repr

/-- Sum of the red channel over a pixel grid. -/
def sumR (img : List (List RGB)) : Nat := (img.map fun row => (row.map RGB.r).sum).sum

/-- Sum of the green channel over a pixel grid. -/
def sumG (img : List (List RGB)) : Nat := (img.map fun row => (row.map RGB.g).sum).sum

/-- Sum of the blue channel over a pixel grid. -/
def sumB (img : List (List RGB)) : Nat := (img.map fun row => (row.map RGB.b).sum).sum

/-- Number of pixels in a grid (`np.mean` divides by the element count). -/
def pixelCount (img : List (List RGB)) : Nat := (img.map List.length).sum

/-- The character of one hexadecimal digit, uppercase as in `f"{n:02X}"`. -/
def hexDigitChar (n : Nat) : Char :=
  if n < 10 then Char.ofNat (48 + n) else Char.ofNat (55 + n)

/-- Python `f"{n:02X}"` for `n < 256`: exactly two uppercase hexadecimal
digits.  The program only formats channel means of 8-bit pixels, which are
always `< 256` (proved in the claim theorem); Python would print more digits
for larger values. -/
def pythonHex02X (n : Nat) : List Char := [hexDigitChar (n / 16), hexDigitChar (n % 16)]

/-- Numeric value of one hexadecimal digit character. -/
def hexCharVal (c : Char) : Nat :=
  if c.toNat ≤ 57 then c.toNat - 48 else c.toNat - 55

/-- Numeric value of a two-character hexadecimal chunk. -/
def hexPairVal : List Char → Nat
  | [a, b] => 16 * hexCharVal a + hexCharVal b
  | _ => 0

/-- `calculate_mean_color_hash` on the decoded image after
`img.resize((64, 64))` (PIL decoding and resampling abstracted as the input
grid).  `np.array(img).mean(axis=(0, 1))` is the per-channel sum divided by
the pixel count — exact in float64 for 8-bit data and a power-of-two count —
and `int(...)` truncates it, which is floor division here. -/
def calculate_mean_color_hash (img : List (List RGB)) : List Char :=
  pythonHex02X (sumR img / pixelCount img) ++
  pythonHex02X (sumG img / pixelCount img) ++
  pythonHex02X (sumB img / pixelCount img)

/-! ### Concrete fixtures for witnesses and counterexamples -/

/-- A source file `s/a`. -/
def pA : FilePath' := [['s'], ['a']]

/-- A source file `s/b`. -/
def pB : FilePath' := [['s'], ['b']]

/-- A destination directory `d`. -/
def dDir : FilePath' := [['d']]

/-- A file `d/a`, already inside the destination directory. -/
def dA : FilePath' := [['d'], ['a']]

/-- A file `d/b`, already inside the destination directory. -/
def dB : FilePath' := [['d'], ['b']]

/-- A fingerprinting primitive that succeeds on every file with the same
fingerprint. -/
def okHash : HashFn := fun _ => .ok ['h']

/-- A fingerprinting primitive that fails on `pA` and succeeds elsewhere. -/
def failAHash : HashFn := fun p => if p = pA then .error .unreadable else .ok ['h']

/-- A concrete 64×64 decoded canvas of one uniform color. -/
def wCanvas : List (List RGB) := List.replicate 64 (List.replicate 64 ⟨10, 20, 30⟩)

/-! ### Invariant predicates used by the theorems -/

/-- The index stores each path as often as the processed list does, and its
groups are non-empty subsequences of the processed list (processing order). -/
def IndexInv (d : DuplicateIndex) (proc : List FilePath') : Prop :=
  (pathsOf d).Perm proc ∧
  ∀ e ∈ d, e.2 ≠ [] ∧ e.2.Sublist proc

/-- Invariant of the relocation state: the filesystem has no duplicate
paths, the counter equals the number of moved files, every moved file was
outside the destination, is gone from its old path and present under the
destination, and files under the destination that already existed are still
there. -/
def GoodState (dest : FilePath') (fs0 : FS) (st : RState) : Prop :=
  st.fs.Nodup ∧
  st.movedNumber = st.movedFiles.length ∧
  (∀ f ∈ st.movedFiles,
    commonpath f dest ≠ dest ∧ f ∉ st.fs ∧ dest ++ [basename f] ∈ st.fs) ∧
  (∀ f, commonpath f dest = dest → f ∈ fs0 → f ∈ st.fs)

/-! ### The `commonpath` guard is the "under the destination" test -/

theorem commonpath_eq_iff (f d : FilePath') : commonpath f d = d ↔ d <+: f := by
  induction d generalizing f with
  | nil =>
    constructor
    · intro _
      exact List.nil_prefix
    · intro _
      cases f <;> rfl
  | cons b bs ih =>
    cases f with
    | nil =>
      constructor
      · intro h
        exact absurd h (by simp [commonpath])
      · intro h
        simp at h
    | cons a as =>
      by_cases hab : a = b
      · subst hab
        have hcp : commonpath (a :: as) (a :: bs) = a :: commonpath as bs := by
          simp [commonpath]
        rw [hcp, List.cons_prefix_cons]
        constructor
        · intro h
          injection h with _ h2
          exact ⟨rfl, (ih as).mp h2⟩
        · rintro ⟨-, h2⟩
          rw [(ih as).mpr h2]
      · have hcp : commonpath (a :: as) (b :: bs) = [] := by
          simp [commonpath, hab]
        rw [hcp, List.cons_prefix_cons]
        constructor
        · intro h
          exact absurd h (by simp)
        · rintro ⟨h1, -⟩
          exact absurd h1.symm hab

theorem notUnderDest_iff (dest f : FilePath') :
    notUnderDest dest f = true ↔ ¬ dest <+: f := by
  simp [notUnderDest, commonpath_eq_iff]

/-! ### `dictInsert` invariants -/

theorem pathsOf_dictInsert_perm (d : DuplicateIndex) (k : Fingerprint) (p : FilePath') :
    (pathsOf (dictInsert d k p)).Perm (pathsOf d ++ [p]) := by
  induction d with
  | nil =>
    simp [dictInsert, pathsOf]
  | cons e rest ih =>
    obtain ⟨k', g⟩ := e
    by_cases hk : k' = k
    · subst hk
      have hd : dictInsert ((k', g) :: rest) k' p = (k', g ++ [p]) :: rest := by
        simp [dictInsert]
      rw [hd]
      simp only [pathsOf, List.map_cons, List.flatten_cons, List.append_assoc]
      exact (List.perm_append_comm.append_left g).trans
        (by rw [← List.append_assoc])
    · have hd : dictInsert ((k', g) :: rest) k p = (k', g) :: dictInsert rest k p := by
        simp [dictInsert, hk]
      rw [hd]
      simp only [pathsOf, List.map_cons, List.flatten_cons, List.append_assoc]
      exact ih.append_left g

theorem dictInsert_groups {d : DuplicateIndex} {proc : List FilePath'}
    (k : Fingerprint) (p : FilePath')
    (h : ∀ e ∈ d, e.2 ≠ [] ∧ e.2.Sublist proc) :
    ∀ e ∈ dictInsert d k p, e.2 ≠ [] ∧ e.2.Sublist (proc ++ [p]) := by
  induction d with
  | nil =>
    intro e he
    have hd : dictInsert [] k p = [(k, [p])] := rfl
    rw [hd, List.mem_singleton] at he
    subst he
    exact ⟨by simp, by simp⟩
  | cons hd rest ih =>
    obtain ⟨k', g⟩ := hd
    by_cases hk : k' = k
    · subst hk
      intro e he
      have hd : dictInsert ((k', g) :: rest) k' p = (k', g ++ [p]) :: rest := by
        simp [dictInsert]
      rw [hd, List.mem_cons] at he
      rcases he with he | he
      · subst he
        refine ⟨by simp, ?_⟩
        exact (h (k', g) (by simp)).2.append (List.Sublist.refl [p])
      · obtain ⟨h1, h2⟩ := h e (List.mem_cons_of_mem _ he)
        exact ⟨h1, h2.trans (List.sublist_append_left _ _)⟩
    · intro e he
      have hd : dictInsert ((k', g) :: rest) k p = (k', g) :: dictInsert rest k p := by
        simp [dictInsert, hk]
      rw [hd, List.mem_cons] at he
      rcases he with he | he
      · subst he
        obtain ⟨h1, h2⟩ := h (k', g) (by simp)
        exact ⟨h1, h2.trans (List.sublist_append_left _ _)⟩
      · exact ih (fun e' he' => h e' (List.mem_cons_of_mem _ he')) e he

/-! ### Loop invariants of the fingerprinting strategies -/

theorem indexInv_dictInsert {d : DuplicateIndex} {proc : List FilePath'}
    (k : Fingerprint) (p : FilePath') (h : IndexInv d proc) :
    IndexInv (dictInsert d k p) (proc ++ [p]) := by
  constructor
  · exact (pathsOf_dictInsert_perm d k p).trans (h.1.append_right [p])
  · exact dictInsert_groups k p h.2

theorem hashLoopSkip_inv (hash : HashFn) (total : Nat) :
    ∀ (files : List FilePath') (i : Nat) (d : DuplicateIndex) (proc : List FilePath'),
      IndexInv d proc →
      IndexInv (hashLoopSkip hash total files i d).1
        (proc ++ files.filter (hashOk hash)) := by
  intro files
  induction files with
  | nil =>
    intro i d proc h
    simpa [hashLoopSkip] using h
  | cons f rest ih =>
    intro i d proc h
    cases hf : hash f with
    | error e =>
      have hok : hashOk hash f = false := by simp [hashOk, hf]
      rw [List.filter_cons, hok]
      simp only [hashLoopSkip, hf]
      simpa using ih (i + 1) d proc h
    | ok k =>
      have hok : hashOk hash f = true := by simp [hashOk, hf]
      rw [List.filter_cons, hok]
      simp only [hashLoopSkip, hf, if_pos rfl]
      have := ih (i + 1) (dictInsert d k f) (proc ++ [f]) (indexInv_dictInsert k f h)
      simpa [List.append_assoc] using this

theorem hashLoopAbort_inv (hash : HashFn) (total : Nat) :
    ∀ (files : List FilePath') (i : Nat) (d : DuplicateIndex) (proc : List FilePath'),
      IndexInv d proc →
      IndexInv (hashLoopAbort hash total files i d).1
        (proc ++ files.takeWhile (hashOk hash)) := by
  intro files
  induction files with
  | nil =>
    intro i d proc h
    simpa [hashLoopAbort] using h
  | cons f rest ih =>
    intro i d proc h
    cases hf : hash f with
    | error e =>
      have hok : hashOk hash f = false := by simp [hashOk, hf]
      rw [List.takeWhile_cons, hok]
      simp only [hashLoopAbort, hf]
      simpa using h
    | ok k =>
      have hok : hashOk hash f = true := by simp [hashOk, hf]
      rw [List.takeWhile_cons, hok]
      simp only [hashLoopAbort, hf, if_pos rfl]
      have := ih (i + 1) (dictInsert d k f) (proc ++ [f]) (indexInv_dictInsert k f h)
      simpa [List.append_assoc] using this

theorem indexInv_nil : IndexInv ([] : DuplicateIndex) [] :=
  ⟨by simp [pathsOf], by simp⟩

theorem mean_color_hash_inv (hash : HashFn) (files : List FilePath') :
    IndexInv (mean_color_hash hash files).1 (files.filter (hashOk hash)) := by
  have h := hashLoopSkip_inv hash files.length files 0 [] [] indexInv_nil
  simpa using h

theorem exact_match_hashing_inv (hash : HashFn) (files : List FilePath') :
    IndexInv (exact_match_hashing hash files).1 (files.takeWhile (hashOk hash)) := by
  have h := hashLoopAbort_inv hash files.length files 0 [] [] indexInv_nil
  simpa using h

/-- C9: after a fingerprinting run over distinct file paths, the groups of
the index partition the successfully processed files — the concatenation of
all groups is a permutation of the processed list (so each processed file
occurs in exactly one group, exactly once), it has no duplicates, every
group is non-empty, and every group lists its paths in processing order
(it is a subsequence of the processed list).  For `mean_color_hash` the
processed files are those whose fingerprint succeeds; for
`exact_match_hashing` they are the files before the first failure. -/
theorem index_partitions_processed_files (hash : HashFn) (files : List FilePath')
    (hnd : files.Nodup) :
    (pathsOf (mean_color_hash hash files).1).Perm (files.filter (hashOk hash)) ∧
    (pathsOf (mean_color_hash hash files).1).Nodup ∧
    (∀ e ∈ (mean_color_hash hash files).1, e.2 ≠ [] ∧
      e.2.Sublist (files.filter (hashOk hash))) ∧
    (pathsOf (exact_match_hashing hash files).1).Perm (files.takeWhile (hashOk hash)) ∧
    (pathsOf (exact_match_hashing hash files).1).Nodup ∧
    (∀ e ∈ (exact_match_hashing hash files).1, e.2 ≠ [] ∧
      e.2.Sublist (files.takeWhile (hashOk hash))) := by
  obtain ⟨hMp, hMg⟩ := mean_color_hash_inv hash files
  obtain ⟨hEp, hEg⟩ := exact_match_hashing_inv hash files
  refine ⟨hMp, ?_, hMg, hEp, ?_, hEg⟩
  · exact hMp.nodup_iff.mpr (hnd.filter _)
  · exact hEp.nodup_iff.mpr ((List.takeWhile_sublist _).nodup hnd)

/-- Witness for C9 at a concrete two-file scan. -/
theorem index_partitions_processed_files_witness :
    ([pA, pB] : List FilePath').Nodup ∧
    ((pathsOf (mean_color_hash okHash [pA, pB]).1).Perm
        ([pA, pB].filter (hashOk okHash)) ∧
      (pathsOf (mean_color_hash okHash [pA, pB]).1).Nodup ∧
      (∀ e ∈ (mean_color_hash okHash [pA, pB]).1, e.2 ≠ [] ∧
        e.2.Sublist ([pA, pB].filter (hashOk okHash))) ∧
      (pathsOf (exact_match_hashing okHash [pA, pB]).1).Perm
        ([pA, pB].takeWhile (hashOk okHash)) ∧
      (pathsOf (exact_match_hashing okHash [pA, pB]).1).Nodup ∧
      (∀ e ∈ (exact_match_hashing okHash [pA, pB]).1, e.2 ≠ [] ∧
        e.2.Sublist ([pA, pB].takeWhile (hashOk okHash)))) :=
  ⟨by decide, index_partitions_processed_files okHash [pA, pB] (by decide)⟩

/-- C2 fails on the code: in `exact_match_hashing` the `try` wraps the whole
loop, so the failure on the first file prevents the second file — whose
fingerprint succeeds — from ever being processed: the final index is empty. -/
theorem exact_match_failure_stops_scan_cex :
    (exact_match_hashing failAHash [pA, pB]).1 = [] ∧
    failAHash pB = .ok ['h'] := by
  constructor
  · rfl
  · rfl

/-- C2 (amended): only `mean_color_hash` records a per-file fingerprint
failure and continues — every file whose fingerprint succeeds ends up in its
index, whatever happens to the other files.  In `exact_match_hashing` (and
`perceptual_hashing`, which shares the loop) the exception is caught outside
the loop, so only files strictly before the first failure are processed. -/
theorem per_file_failure_amended (hash : HashFn) (files : List FilePath') :
    (∀ f ∈ files, hashOk hash f = true → f ∈ pathsOf (mean_color_hash hash files).1) ∧
    (∀ f ∈ pathsOf (exact_match_hashing hash files).1,
      f ∈ files.takeWhile (hashOk hash)) := by
  obtain ⟨hMp, -⟩ := mean_color_hash_inv hash files
  obtain ⟨hEp, -⟩ := exact_match_hashing_inv hash files
  constructor
  · intro f hf hok
    exact hMp.mem_iff.mpr (List.mem_filter.mpr ⟨hf, hok⟩)
  · intro f hf
    exact hEp.mem_iff.mp hf

/-- Witness for the amended C2: with the failure on `pA`, `mean_color_hash`
still records `pB`. -/
theorem per_file_failure_amended_witness :
    pB ∈ pathsOf (mean_color_hash failAHash [pA, pB]).1 :=
  (per_file_failure_amended failAHash [pA, pB]).1 pB (by decide) (by decide)

/-! ### Relocation: success characterization of `move_duplicates` -/

theorem moveGroup_ok {dest : FilePath'} :
    ∀ (files : List FilePath') (st st' : RState),
      moveGroup dest files st = .ok st' →
      st'.movedFiles = st.movedFiles ++ files.filter (notUnderDest dest) ∧
      st'.movedNumber = st.movedNumber + (files.filter (notUnderDest dest)).length ∧
      st'.duplicatesFound = st.duplicatesFound := by
  intro files
  induction files with
  | nil =>
    intro st st' h
    simp only [moveGroup] at h
    injection h with h
    subst h
    simp
  | cons f rest ih =>
    intro st st' h
    simp only [moveGroup] at h
    by_cases hg : commonpath f dest = dest
    · rw [if_pos hg] at h
      have hnud : notUnderDest dest f = false := by simp [notUnderDest, hg]
      have hfil : (f :: rest).filter (notUnderDest dest)
          = rest.filter (notUnderDest dest) := by
        simp [List.filter_cons, hnud]
      rw [hfil]
      exact ih st st' h
    · rw [if_neg hg] at h
      have hnud : notUnderDest dest f = true := by simp [notUnderDest, hg]
      have hfil : (f :: rest).filter (notUnderDest dest)
          = f :: rest.filter (notUnderDest dest) := by
        simp [List.filter_cons, hnud]
      rw [hfil]
      cases hm : shutil_move st.fs f dest with
      | error e =>
        rw [hm] at h
        exact Except.noConfusion h
      | ok fs' =>
        rw [hm] at h
        obtain ⟨h1, h2, h3⟩ := ih _ st' h
        refine ⟨?_, ?_, h3⟩
        · rw [h1]
          simp
        · rw [h2]
          simp
          omega

theorem shutil_move_ok {fs fs' : FS} {f dest : FilePath'}
    (hm : shutil_move fs f dest = .ok fs') :
    f ∈ fs ∧ dest ++ [basename f] ∉ fs ∧ fs' = fs.erase f ++ [dest ++ [basename f]] := by
  by_cases h1 : f ∈ fs
  · by_cases h2 : dest ++ [basename f] ∈ fs
    · simp [shutil_move, h1, h2] at hm
    · simp only [shutil_move, if_pos h1, if_neg h2] at hm
      injection hm with hm
      exact ⟨h1, h2, hm.symm⟩
  · simp [shutil_move, h1] at hm

theorem goodState_move {dest : FilePath'} {fs0 : FS} {st : RState} {f : FilePath'} {fs' : FS}
    (hG : GoodState dest fs0 st) (hg : commonpath f dest ≠ dest)
    (hm : shutil_move st.fs f dest = .ok fs') :
    GoodState dest fs0
      { st with fs := fs', movedNumber := st.movedNumber + 1,
                movedFiles := st.movedFiles ++ [f] } := by
  obtain ⟨hnd, hnum, hmoved, hunder⟩ := hG
  obtain ⟨hfmem, htne, hfs'⟩ := shutil_move_ok hm
  subst hfs'
  have htarget_under : commonpath (dest ++ [basename f]) dest = dest :=
    (commonpath_eq_iff _ _).mpr ⟨[basename f], rfl⟩
  have htarget_ne_f : dest ++ [basename f] ≠ f := fun he => hg (he ▸ htarget_under)
  refine ⟨?_, ?_, ?_, ?_⟩
  · refine (hnd.erase f).append (List.nodup_singleton _) ?_
    intro a ha hb
    rw [List.mem_singleton] at hb
    subst hb
    exact htne ((List.erase_sublist f st.fs).subset ha)
  · simp [hnum]
  · intro g hgmem
    rw [List.mem_append, List.mem_singleton] at hgmem
    rcases hgmem with hgmem | hgmem
    · obtain ⟨hga, hgb, hgc⟩ := hmoved g hgmem
      refine ⟨hga, ?_, ?_⟩
      · intro hc
        rw [List.mem_append, List.mem_singleton] at hc
        rcases hc with hc | hc
        · exact hgb ((List.erase_sublist f st.fs).subset hc)
        · exact hga (hc ▸ htarget_under)
      · rw [List.mem_append]
        left
        have hne : dest ++ [basename g] ≠ f := fun he =>
          hg (he ▸ ((commonpath_eq_iff _ _).mpr ⟨[basename g], rfl⟩))
        exact (List.mem_erase_of_ne hne).mpr hgc
    · subst hgmem
      refine ⟨hg, ?_, ?_⟩
      · intro hc
        rw [List.mem_append, List.mem_singleton] at hc
        rcases hc with hc | hc
        · exact hnd.not_mem_erase hc
        · exact hg (hc ▸ htarget_under)
      · rw [List.mem_append, List.mem_singleton]
        right
        rfl
  · intro g hgp hg0
    have hgf : g ≠ f := fun he => hg (he ▸ hgp)
    rw [List.mem_append]
    left
    exact (List.mem_erase_of_ne hgf).mpr (hunder g hgp hg0)

theorem moveGroup_good {dest : FilePath'} {fs0 : FS} :
    ∀ (files : List FilePath') (st st' : RState),
      GoodState dest fs0 st →
      moveGroup dest files st = .ok st' →
      GoodState dest fs0 st' := by
  intro files
  induction files with
  | nil =>
    intro st st' hG h
    simp only [moveGroup] at h
    injection h with h
    subst h
    exact hG
  | cons f rest ih =>
    intro st st' hG h
    simp only [moveGroup] at h
    by_cases hg : commonpath f dest = dest
    · rw [if_pos hg] at h
      exact ih st st' hG h
    · rw [if_neg hg] at h
      cases hm : shutil_move st.fs f dest with
      | error e =>
        rw [hm] at h
        exact Except.noConfusion h
      | ok fs' =>
        rw [hm] at h
        exact ih _ st' (goodState_move hG hg hm) h

theorem moveGroupsAux_ok {dest : FilePath'} :
    ∀ (idx : DuplicateIndex) (st st' : RState),
      moveGroupsAux dest idx st = .ok st' →
      st'.movedFiles = st.movedFiles ++ attemptedMoves dest idx ∧
      st'.movedNumber = st.movedNumber + (attemptedMoves dest idx).length ∧
      st'.duplicatesFound
        = (st.duplicatesFound || idx.any fun g => decide (1 < g.2.length)) := by
  intro idx
  induction idx with
  | nil =>
    intro st st' h
    simp only [moveGroupsAux] at h
    injection h with h
    subst h
    simp [attemptedMoves]
  | cons e rest ih =>
    obtain ⟨k, files⟩ := e
    intro st st' h
    simp only [moveGroupsAux] at h
    by_cases hlen : 1 < files.length
    · rw [if_pos hlen] at h
      have hatt : attemptedMoves dest ((k, files) :: rest)
          = files.filter (notUnderDest dest) ++ attemptedMoves dest rest := by
        simp [attemptedMoves, hlen]
      cases hmg : moveGroup dest files { st with duplicatesFound := true } with
      | error e' =>
        rw [hmg] at h
        exact Except.noConfusion h
      | ok st2 =>
        rw [hmg] at h
        obtain ⟨e1, e2, e3⟩ := moveGroup_ok files _ st2 hmg
        obtain ⟨i1, i2, i3⟩ := ih st2 st' h
        rw [hatt]
        refine ⟨?_, ?_, ?_⟩
        · rw [i1, e1]
          simp
        · rw [i2, e2, List.length_append]
          simp
          omega
        · rw [i3, e3]
          simp [hlen]
    · rw [if_neg hlen] at h
      have hatt : attemptedMoves dest ((k, files) :: rest)
          = attemptedMoves dest rest := by
        simp [attemptedMoves, hlen]
      obtain ⟨i1, i2, i3⟩ := ih st st' h
      rw [hatt]
      refine ⟨i1, i2, ?_⟩
      rw [i3]
      simp [hlen]

theorem moveGroupsAux_good {dest : FilePath'} {fs0 : FS} :
    ∀ (idx : DuplicateIndex) (st st' : RState),
      GoodState dest fs0 st →
      moveGroupsAux dest idx st = .ok st' →
      GoodState dest fs0 st' := by
  intro idx
  induction idx with
  | nil =>
    intro st st' hG h
    simp only [moveGroupsAux] at h
    injection h with h
    subst h
    exact hG
  | cons e rest ih =>
    obtain ⟨k, files⟩ := e
    intro st st' hG h
    simp only [moveGroupsAux] at h
    by_cases hlen : 1 < files.length
    · rw [if_pos hlen] at h
      cases hmg : moveGroup dest files { st with duplicatesFound := true } with
      | error e' =>
        rw [hmg] at h
        exact Except.noConfusion h
      | ok st2 =>
        rw [hmg] at h
        have hG' : GoodState dest fs0 { st with duplicatesFound := true } := hG
        exact ih st2 st' (moveGroup_good files _ st2 hG' hmg) h
    · rw [if_neg hlen] at h
      exact ih st st' hG h

theorem move_duplicates_ok {idx : DuplicateIndex} {dest : FilePath'} {fs0 : FS}
    {st : RState} (h : move_duplicates idx dest fs0 = .ok st) :
    st.movedFiles = attemptedMoves dest idx ∧
    st.movedNumber = (attemptedMoves dest idx).length ∧
    st.duplicatesFound = idx.any fun g => decide (1 < g.2.length) := by
  obtain ⟨h1, h2, h3⟩ := moveGroupsAux_ok idx _ st h
  exact ⟨by simpa using h1, by simpa using h2, by simpa using h3⟩

theorem move_duplicates_good {idx : DuplicateIndex} {dest : FilePath'} {fs0 : FS}
    {st : RState} (hnd : fs0.Nodup) (h : move_duplicates idx dest fs0 = .ok st) :
    GoodState dest fs0 st := by
  refine moveGroupsAux_good idx _ st ?_ h
  exact ⟨hnd, rfl, by simp, fun f _ hf => hf⟩

theorem mem_attemptedMoves {dest : FilePath'} {idx : DuplicateIndex} {f : FilePath'} :
    f ∈ attemptedMoves dest idx ↔
      ∃ g ∈ idx, 1 < g.2.length ∧ f ∈ g.2 ∧ ¬ dest <+: f := by
  simp only [attemptedMoves, List.mem_flatten, List.mem_map, List.mem_filter,
    decide_eq_true_eq]
  constructor
  · rintro ⟨l, ⟨g, ⟨hg, hlen⟩, rfl⟩, hf⟩
    rw [List.mem_filter, notUnderDest_iff] at hf
    exact ⟨g, hg, hlen, hf.1, hf.2⟩
  · rintro ⟨g, hg, hlen, hf, hnu⟩
    refine ⟨g.2.filter (notUnderDest dest), ⟨g, ⟨hg, hlen⟩, rfl⟩, ?_⟩
    rw [List.mem_filter, notUnderDest_iff]
    exact ⟨hf, hnu⟩

/-- C1: on a successful relocation from a duplicate-free filesystem over an
index with pairwise-disjoint groups (as every scan produces): every member
of every group with at least two elements that is not under the destination
is moved and ends up inside the destination; no moved file was under the
destination, and files under the destination keep existing untouched;
members of singleton groups are never moved; and the reported count equals
the number of files actually relocated. -/
theorem move_duplicates_relocates_qualifying_groups
    (idx : DuplicateIndex) (dest : FilePath') (fs0 : FS) (st : RState)
    (hnd : fs0.Nodup)
    (hdisj : idx.Pairwise fun g1 g2 => ∀ f ∈ g1.2, f ∉ g2.2)
    (hrun : move_duplicates idx dest fs0 = .ok st) :
    (∀ g ∈ idx, 1 < g.2.length → ∀ f ∈ g.2, ¬ dest <+: f →
      f ∈ st.movedFiles ∧ dest ++ [basename f] ∈ st.fs) ∧
    (∀ f ∈ st.movedFiles, ¬ dest <+: f) ∧
    (∀ f, dest <+: f → f ∈ fs0 → f ∈ st.fs) ∧
    (∀ g ∈ idx, g.2.length ≤ 1 → ∀ f ∈ g.2, f ∉ st.movedFiles) ∧
    st.movedNumber = st.movedFiles.length := by
  obtain ⟨hmf, -, -⟩ := move_duplicates_ok hrun
  obtain ⟨-, hnum, hmoved, hunder⟩ := move_duplicates_good hnd hrun
  refine ⟨?_, ?_, ?_, ?_, hnum⟩
  · intro g hg hlen f hf hnu
    have hmem : f ∈ st.movedFiles := by
      rw [hmf]
      exact mem_attemptedMoves.mpr ⟨g, hg, hlen, hf, hnu⟩
    exact ⟨hmem, (hmoved f hmem).2.2⟩
  · intro f hfm
    rw [← commonpath_eq_iff]
    exact (hmoved f hfm).1
  · intro f hfp hf0
    exact hunder f ((commonpath_eq_iff f dest).mpr hfp) hf0
  · intro g hg hlen f hf hfm
    rw [hmf] at hfm
    obtain ⟨g', hg', hlen', hf', -⟩ := mem_attemptedMoves.mp hfm
    have hne : g ≠ g' := by
      intro he
      rw [he] at hlen
      omega
    have hsymm : Symmetric fun g1 g2 : Fingerprint × List FilePath' =>
        ∀ f ∈ g1.2, f ∉ g2.2 := by
      intro x y hxy p hpy hpx
      exact hxy p hpx hpy
    exact hdisj.forall hsymm hg hg' hne f hf hf'

/-- Witness for C1 at a concrete scan: one duplicate group `{s/a, s/b}`,
destination `d`, both files moved. -/
theorem move_duplicates_relocates_qualifying_groups_witness :
    ([pA, pB] : FS).Nodup ∧
    ([(['h'], [pA, pB])] : DuplicateIndex).Pairwise
      (fun g1 g2 => ∀ f ∈ g1.2, f ∉ g2.2) ∧
    move_duplicates [(['h'], [pA, pB])] dDir [pA, pB]
      = .ok ⟨[dA, dB], 2, [pA, pB], true⟩ ∧
    ((∀ g ∈ ([(['h'], [pA, pB])] : DuplicateIndex), 1 < g.2.length →
        ∀ f ∈ g.2, ¬ dDir <+: f →
          f ∈ (⟨[dA, dB], 2, [pA, pB], true⟩ : RState).movedFiles ∧
          dDir ++ [basename f] ∈ (⟨[dA, dB], 2, [pA, pB], true⟩ : RState).fs) ∧
      (∀ f ∈ (⟨[dA, dB], 2, [pA, pB], true⟩ : RState).movedFiles, ¬ dDir <+: f) ∧
      (∀ f, dDir <+: f → f ∈ ([pA, pB] : FS) →
        f ∈ (⟨[dA, dB], 2, [pA, pB], true⟩ : RState).fs) ∧
      (∀ g ∈ ([(['h'], [pA, pB])] : DuplicateIndex), g.2.length ≤ 1 →
        ∀ f ∈ g.2, f ∉ (⟨[dA, dB], 2, [pA, pB], true⟩ : RState).movedFiles) ∧
      (⟨[dA, dB], 2, [pA, pB], true⟩ : RState).movedNumber
        = (⟨[dA, dB], 2, [pA, pB], true⟩ : RState).movedFiles.length) :=
  ⟨by decide, by simp,
   by rfl,
   move_duplicates_relocates_qualifying_groups _ _ _ _ (by decide) (by simp) (by rfl)⟩

/-- C10: after a successful relocation, the `duplicates_found` flag is true
exactly when the index contains a group with at least two members, and the
summary reports duplicates exactly in that case — independently of how many
files were actually moved. -/
theorem duplicates_found_iff_group_ge_two
    (idx : DuplicateIndex) (dest : FilePath') (fs0 : FS) (st : RState)
    (hrun : move_duplicates idx dest fs0 = .ok st) :
    (st.duplicatesFound = true ↔ ∃ g ∈ idx, 1 < g.2.length) ∧
    (scanSummary st = Summary.duplicates st.movedNumber ↔
      ∃ g ∈ idx, 1 < g.2.length) := by
  obtain ⟨-, -, h3⟩ := move_duplicates_ok hrun
  have hany : (idx.any fun g => decide (1 < g.2.length)) = true ↔
      ∃ g ∈ idx, 1 < g.2.length := by
    simp [List.any_eq_true]
  constructor
  · rw [h3]
    exact hany
  · rw [scanSummary]
    by_cases hf : st.duplicatesFound
    · rw [if_pos hf]
      simp only [true_iff]
      exact hany.mp (h3 ▸ hf)
    · rw [if_neg hf]
      constructor
      · intro he
        exact Summary.noConfusion he
      · intro he
        exact absurd (h3 ▸ hany.mpr he) hf

/-- Witness for C10: a qualifying group whose members already live under the
destination — zero files moved, yet the flag and the summary report
duplicates. -/
theorem duplicates_found_iff_group_ge_two_witness :
    move_duplicates [(['h'], [dA, dB])] dDir [dA, dB]
      = .ok ⟨[dA, dB], 0, [], true⟩ ∧
    (((⟨[dA, dB], 0, [], true⟩ : RState).duplicatesFound = true ↔
        ∃ g ∈ ([(['h'], [dA, dB])] : DuplicateIndex), 1 < g.2.length) ∧
      (scanSummary ⟨[dA, dB], 0, [], true⟩
          = Summary.duplicates (⟨[dA, dB], 0, [], true⟩ : RState).movedNumber ↔
        ∃ g ∈ ([(['h'], [dA, dB])] : DuplicateIndex), 1 < g.2.length)) :=
  ⟨by rfl, duplicates_found_iff_group_ge_two [(['h'], [dA, dB])] dDir [dA, dB]
    ⟨[dA, dB], 0, [], true⟩ (by rfl)⟩

/-! ### Relocation: failure characterization of `move_duplicates` -/

theorem moveGroup_err {dest : FilePath'} :
    ∀ (files : List FilePath') (st : RState) (f : FilePath') (st' : RState),
      moveGroup dest files st = .error (f, st') →
      ∃ done rest, files.filter (notUnderDest dest) = done ++ f :: rest ∧
        st'.movedFiles = st.movedFiles ++ done ∧
        st'.movedNumber = st.movedNumber + done.length ∧
        st'.duplicatesFound = st.duplicatesFound ∧
        ∃ e, shutil_move st'.fs f dest = .error e := by
  intro files
  induction files with
  | nil =>
    intro st f st' h
    simp only [moveGroup] at h
    exact Except.noConfusion h
  | cons g gs ih =>
    intro st f st' h
    simp only [moveGroup] at h
    by_cases hgd : commonpath g dest = dest
    · rw [if_pos hgd] at h
      have hnud : notUnderDest dest g = false := by simp [notUnderDest, hgd]
      have hfil : (g :: gs).filter (notUnderDest dest)
          = gs.filter (notUnderDest dest) := by
        simp [List.filter_cons, hnud]
      rw [hfil]
      exact ih st f st' h
    · rw [if_neg hgd] at h
      have hnud : notUnderDest dest g = true := by simp [notUnderDest, hgd]
      have hfil : (g :: gs).filter (notUnderDest dest)
          = g :: gs.filter (notUnderDest dest) := by
        simp [List.filter_cons, hnud]
      rw [hfil]
      cases hm : shutil_move st.fs g dest with
      | error e =>
        rw [hm] at h
        injection h with h
        rw [Prod.mk.injEq] at h
        obtain ⟨rfl, rfl⟩ := h
        exact ⟨[], gs.filter (notUnderDest dest), by simp, by simp, by simp, rfl, e, hm⟩
      | ok fs' =>
        rw [hm] at h
        obtain ⟨done, rest, h1, h2, h3, h4, h5⟩ := ih _ f st' h
        refine ⟨g :: done, rest, by simp [h1], ?_, ?_, h4, h5⟩
        · rw [h2]
          simp
        · rw [h3]
          simp
          omega

theorem moveGroupsAux_err {dest : FilePath'} :
    ∀ (idx : DuplicateIndex) (st : RState) (f : FilePath') (st' : RState),
      moveGroupsAux dest idx st = .error (f, st') →
      ∃ done rest, attemptedMoves dest idx = done ++ f :: rest ∧
        st'.movedFiles = st.movedFiles ++ done ∧
        st'.movedNumber = st.movedNumber + done.length ∧
        st'.duplicatesFound = true ∧
        ∃ e, shutil_move st'.fs f dest = .error e := by
  intro idx
  induction idx with
  | nil =>
    intro st f st' h
    simp only [moveGroupsAux] at h
    exact Except.noConfusion h
  | cons e rest ih =>
    obtain ⟨k, files⟩ := e
    intro st f st' h
    simp only [moveGroupsAux] at h
    by_cases hlen : 1 < files.length
    · rw [if_pos hlen] at h
      have hatt : attemptedMoves dest ((k, files) :: rest)
          = files.filter (notUnderDest dest) ++ attemptedMoves dest rest := by
        simp [attemptedMoves, hlen]
      cases hmg : moveGroup dest files { st with duplicatesFound := true } with
      | error e0 =>
        rw [hmg] at h
        injection h with h
        subst h
        obtain ⟨done, drest, h1, h2, h3, h4, h5⟩ := moveGroup_err files _ f st' hmg
        refine ⟨done, drest ++ attemptedMoves dest rest, ?_, h2, h3, h4, h5⟩
        rw [hatt, h1]
        simp
      | ok st2 =>
        rw [hmg] at h
        obtain ⟨e1, e2, e3⟩ := moveGroup_ok files _ st2 hmg
        obtain ⟨done, drest, h1, h2, h3, h4, h5⟩ := ih st2 f st' h
        refine ⟨files.filter (notUnderDest dest) ++ done, drest, ?_, ?_, ?_, h4, h5⟩
        · rw [hatt, h1]
          simp
        · rw [h2, e1]
          simp
        · rw [h3, e2]
          simp only [List.length_append]
          omega
    · rw [if_neg hlen] at h
      have hatt : attemptedMoves dest ((k, files) :: rest)
          = attemptedMoves dest rest := by
        simp [attemptedMoves, hlen]
      rw [hatt]
      exact ih st f st' h

theorem moveGroup_skip_all {dest : FilePath'} :
    ∀ (files : List FilePath') (st : RState),
      files.filter (notUnderDest dest) = [] →
      moveGroup dest files st = .ok st := by
  intro files
  induction files with
  | nil =>
    intro st _
    rfl
  | cons g gs ih =>
    intro st hfil
    rw [List.filter_cons] at hfil
    cases hnud : notUnderDest dest g with
    | true =>
      rw [hnud] at hfil
      simp at hfil
    | false =>
      rw [hnud] at hfil
      simp only [Bool.false_eq_true, if_false] at hfil
      have hg : commonpath g dest = dest := by
        rw [notUnderDest, decide_eq_false_iff_not, not_not] at hnud
        exact hnud
      simp only [moveGroup, if_pos hg]
      exact ih st hfil

theorem moveGroup_first_fail {dest : FilePath'} :
    ∀ (files : List FilePath') (st : RState) (f : FilePath') (rest' : List FilePath'),
      files.filter (notUnderDest dest) = f :: rest' →
      (∀ fs', shutil_move st.fs f dest ≠ .ok fs') →
      moveGroup dest files st = .error (f, st) := by
  intro files
  induction files with
  | nil =>
    intro st f rest' hfil _
    simp at hfil
  | cons g gs ih =>
    intro st f rest' hfil hfail
    rw [List.filter_cons] at hfil
    cases hnud : notUnderDest dest g with
    | true =>
      rw [hnud, if_pos rfl] at hfil
      injection hfil with hgf hrest
      subst hgf
      have hg : commonpath g dest ≠ dest := by
        rw [notUnderDest, decide_eq_true_eq] at hnud
        exact hnud
      simp only [moveGroup, if_neg hg]
      cases hm : shutil_move st.fs g dest with
      | error e => rfl
      | ok fs' => exact absurd hm (hfail fs')
    | false =>
      rw [hnud] at hfil
      simp only [Bool.false_eq_true, if_false] at hfil
      have hg : commonpath g dest = dest := by
        rw [notUnderDest, decide_eq_false_iff_not, not_not] at hnud
        exact hnud
      simp only [moveGroup, if_pos hg]
      exact ih st f rest' hfil hfail

theorem moveGroupsAux_first_fail {dest : FilePath'} :
    ∀ (idx : DuplicateIndex) (st : RState) (f : FilePath') (rest' : List FilePath'),
      attemptedMoves dest idx = f :: rest' →
      (∀ fs', shutil_move st.fs f dest ≠ .ok fs') →
      moveGroupsAux dest idx st = .error (f, { st with duplicatesFound := true }) := by
  intro idx
  induction idx with
  | nil =>
    intro st f rest' hatt _
    simp [attemptedMoves] at hatt
  | cons e rest ih =>
    obtain ⟨k, files⟩ := e
    intro st f rest' hatt hfail
    by_cases hlen : 1 < files.length
    · have hattc : attemptedMoves dest ((k, files) :: rest)
          = files.filter (notUnderDest dest) ++ attemptedMoves dest rest := by
        simp [attemptedMoves, hlen]
      rw [hattc] at hatt
      simp only [moveGroupsAux, if_pos hlen]
      cases hfg : files.filter (notUnderDest dest) with
      | nil =>
        rw [hfg, List.nil_append] at hatt
        rw [moveGroup_skip_all files { st with duplicatesFound := true } hfg]
        exact ih _ f rest' hatt hfail
      | cons g gs' =>
        rw [hfg, List.cons_append] at hatt
        injection hatt with hgf hrest
        subst hgf
        rw [moveGroup_first_fail files { st with duplicatesFound := true } g gs' hfg hfail]
    · have hattc : attemptedMoves dest ((k, files) :: rest)
          = attemptedMoves dest rest := by
        simp [attemptedMoves, hlen]
      rw [hattc] at hatt
      simp only [moveGroupsAux, if_neg hlen]
      exact ih st f rest' hatt hfail

/-- C4 fails on the code: after a first successful relocation, a second run
of `move_duplicates` on the same index does not skip the already-relocated
files — their recorded paths still point into the source, so the path guard
passes and `shutil.move` raises `FileNotFoundError` on the first of them
instead of completing with zero moves. -/
theorem move_duplicates_not_idempotent_cex :
    move_duplicates [(['h'], [pA, pB])] dDir [pA, pB]
      = .ok ⟨[dA, dB], 2, [pA, pB], true⟩ ∧
    move_duplicates [(['h'], [pA, pB])] dDir [dA, dB]
      = .error (pA, ⟨[dA, dB], 0, [], true⟩) :=
  ⟨rfl, rfl⟩

/-- C4 (amended): relocation is not idempotent on the same index.  After a
first successful run that moved at least one file, a second run on the same
index from the resulting filesystem fails with an error at the first
previously-moved file (whose source path no longer exists), having moved
nothing. -/
theorem move_duplicates_second_run_errors
    (idx : DuplicateIndex) (dest : FilePath') (fs0 : FS) (st : RState)
    (hnd : fs0.Nodup)
    (hrun : move_duplicates idx dest fs0 = .ok st)
    (hmoved : 0 < st.movedNumber) :
    ∃ f ∈ st.movedFiles,
      move_duplicates idx dest st.fs = .error (f, ⟨st.fs, 0, [], true⟩) := by
  obtain ⟨hmf, hmn, -⟩ := move_duplicates_ok hrun
  obtain ⟨-, -, hmvd, -⟩ := move_duplicates_good hnd hrun
  have hne : attemptedMoves dest idx ≠ [] := by
    intro he
    rw [hmn, he] at hmoved
    simp at hmoved
  cases hatt : attemptedMoves dest idx with
  | nil => exact absurd hatt hne
  | cons f rest' =>
    have hfmem : f ∈ st.movedFiles := by
      rw [hmf, hatt]
      simp
    have hnotfs : f ∉ st.fs := (hmvd f hfmem).2.1
    refine ⟨f, hfmem, ?_⟩
    have hfail : ∀ fs', shutil_move st.fs f dest ≠ .ok fs' := by
      intro fs' hc
      exact hnotfs (shutil_move_ok hc).1
    exact moveGroupsAux_first_fail idx _ f rest' hatt hfail

/-- Witness for the amended C4 at a concrete scan. -/
theorem move_duplicates_second_run_errors_witness :
    ([pA, pB] : FS).Nodup ∧
    move_duplicates [(['h'], [pA, pB])] dDir [pA, pB]
      = .ok ⟨[dA, dB], 2, [pA, pB], true⟩ ∧
    0 < (⟨[dA, dB], 2, [pA, pB], true⟩ : RState).movedNumber ∧
    ∃ f ∈ (⟨[dA, dB], 2, [pA, pB], true⟩ : RState).movedFiles,
      move_duplicates [(['h'], [pA, pB])] dDir
          (⟨[dA, dB], 2, [pA, pB], true⟩ : RState).fs
        = .error (f, ⟨(⟨[dA, dB], 2, [pA, pB], true⟩ : RState).fs, 0, [], true⟩) :=
  ⟨by decide, by rfl, by decide,
   move_duplicates_second_run_errors [(['h'], [pA, pB])] dDir [pA, pB]
     ⟨[dA, dB], 2, [pA, pB], true⟩ (by decide) (by rfl) (by decide)⟩

/-- C8 fails on the code: `move_duplicates` has no per-file error handling —
with the group `{u/p, u/q}` and `u/p` vanished, the batch aborts at `u/p`
with an exception; `u/q`, although still present and movable, is left
unmoved and no error report is recorded against the file. -/
theorem move_failure_aborts_batch_cex :
    move_duplicates [(['h'], [[['u'], ['p']], [['u'], ['q']]])] [['v']] [[['u'], ['q']]]
      = .error ([['u'], ['p']], ⟨[[['u'], ['q']]], 0, [], true⟩) ∧
    shutil_move [[['u'], ['q']]] [['u'], ['q']] [['v']] = .ok [[['v'], ['q']]] :=
  ⟨rfl, rfl⟩

/-- C8 (amended): a failing move aborts the relocation batch — the run
returns an error naming the failing file, the files after it in the batch
are never attempted (the moved files plus the failing file form a prefix of
the attempt list), the counter matches the files moved before the failure,
and the failing file's move indeed fails from the state at failure. -/
theorem move_duplicates_error_characterization
    (idx : DuplicateIndex) (dest : FilePath') (fs0 : FS) (f : FilePath') (st' : RState)
    (herr : move_duplicates idx dest fs0 = .error (f, st')) :
    (∃ rest, attemptedMoves dest idx = st'.movedFiles ++ f :: rest) ∧
    st'.movedNumber = st'.movedFiles.length ∧
    st'.duplicatesFound = true ∧
    ∃ e, shutil_move st'.fs f dest = .error e := by
  obtain ⟨done, rest, h1, h2, h3, h4, h5⟩ := moveGroupsAux_err idx _ f st' herr
  have h2' : st'.movedFiles = done := by
    rw [h2]
    exact List.nil_append done
  have h3' : st'.movedNumber = done.length := by
    rw [h3]
    exact Nat.zero_add _
  refine ⟨⟨rest, by rw [h1, h2']⟩, by rw [h3', h2'], h4, h5⟩

/-- Witness for the amended C8 at the concrete aborting batch. -/
theorem move_duplicates_error_characterization_witness :
    move_duplicates [(['h'], [[['u'], ['p']], [['u'], ['q']]])] [['v']] [[['u'], ['q']]]
      = .error ([['u'], ['p']], ⟨[[['u'], ['q']]], 0, [], true⟩) ∧
    ((∃ rest, attemptedMoves [['v']] [(['h'], [[['u'], ['p']], [['u'], ['q']]])]
        = (⟨[[['u'], ['q']]], 0, [], true⟩ : RState).movedFiles ++ [['u'], ['p']] :: rest) ∧
      (⟨[[['u'], ['q']]], 0, [], true⟩ : RState).movedNumber
        = (⟨[[['u'], ['q']]], 0, [], true⟩ : RState).movedFiles.length ∧
      (⟨[[['u'], ['q']]], 0, [], true⟩ : RState).duplicatesFound = true ∧
      ∃ e, shutil_move (⟨[[['u'], ['q']]], 0, [], true⟩ : RState).fs
          [['u'], ['p']] [['v']] = .error e) :=
  ⟨by rfl,
   move_duplicates_error_characterization [(['h'], [[['u'], ['p']], [['u'], ['q']]])]
     [['v']] [[['u'], ['q']]] [['u'], ['p']] ⟨[[['u'], ['q']]], 0, [], true⟩ (by rfl)⟩

/-! ### Progress emission (C3) -/

theorem round2_mono {q r : ℚ} (h : q ≤ r) : round2 q ≤ round2 r := by
  unfold round2
  have h1 : q * 100 + 1 / 2 ≤ r * 100 + 1 / 2 := by linarith
  have h2 : ⌊q * 100 + 1 / 2⌋ ≤ ⌊r * 100 + 1 / 2⌋ := Int.floor_le_floor h1
  have h3 : ((⌊q * 100 + 1 / 2⌋ : ℤ) : ℚ) ≤ ((⌊r * 100 + 1 / 2⌋ : ℤ) : ℚ) := by
    exact_mod_cast h2
  linarith

theorem round2_nonneg {q : ℚ} (h : 0 ≤ q) : 0 ≤ round2 q := by
  unfold round2
  have hq : (0 : ℚ) ≤ q * 100 := mul_nonneg h (by norm_num)
  have h1 : (0 : ℤ) ≤ ⌊q * 100 + 1 / 2⌋ := Int.floor_nonneg.mpr (by linarith)
  have h2 : (0 : ℚ) ≤ ((⌊q * 100 + 1 / 2⌋ : ℤ) : ℚ) := by exact_mod_cast h1
  linarith

theorem round2_hundred : round2 100 = 100 := by
  unfold round2
  have h1 : (100 : ℚ) * 100 + 1 / 2 = (10000 : ℤ) + 1 / 2 := by norm_num
  rw [h1, Int.floor_int_add]
  have h2 : ⌊(1 / 2 : ℚ)⌋ = 0 := by
    rw [Int.floor_eq_zero_iff]
    norm_num [Set.mem_Ico]
  rw [h2]
  norm_num

theorem hashOk_exists_ok {hash : HashFn} {f : FilePath'} (h : hashOk hash f = true) :
    ∃ k, hash f = .ok k := by
  unfold hashOk at h
  cases hf : hash f with
  | error e =>
    rw [hf] at h
    exact absurd h (by simp)
  | ok k => exact ⟨k, rfl⟩

theorem hashLoopAbort_emits (hash : HashFn) (total : Nat) :
    ∀ (files : List FilePath') (i : Nat) (d : DuplicateIndex),
      (∀ f ∈ files, hashOk hash f = true) →
      (hashLoopAbort hash total files i d).2
        = (List.range files.length).map
            (fun j => round2 ((((i + j : ℕ) : ℚ) + 1) / (total : ℚ) * 100)) := by
  intro files
  induction files with
  | nil =>
    intro i d _
    rfl
  | cons f rest ih =>
    intro i d hok
    obtain ⟨k, hf⟩ := hashOk_exists_ok (hok f (by simp))
    have hrest : ∀ g ∈ rest, hashOk hash g = true := fun g hg =>
      hok g (List.mem_cons_of_mem _ hg)
    have htail : (hashLoopAbort hash total rest (i + 1) (dictInsert d k f)).2
        = List.map ((fun j => round2 ((((i + j : ℕ) : ℚ) + 1) / (total : ℚ) * 100))
            ∘ Nat.succ) (List.range rest.length) := by
      rw [ih (i + 1) (dictInsert d k f) hrest]
      refine List.map_congr_left ?_
      intro j _
      simp only [Function.comp_apply]
      congr 1
      push_cast
      ring
    have hhead : round2 (((i : ℚ) + 1) / (total : ℚ) * 100)
        = round2 ((((i + 0 : ℕ) : ℚ) + 1) / (total : ℚ) * 100) := by
      norm_num
    simp only [hashLoopAbort, hf, List.length_cons, List.range_succ_eq_map,
      List.map_cons, List.map_map]
    rw [htail, hhead]

/-- C3 fails on the code: the emitted progress values are percentages, not
fractions — with a single file the one emitted value is `100`, which is
neither within `[0, 1]` nor equal to `1.0` (the processed/total ratio). -/
theorem progress_values_cex :
    (exact_match_hashing okHash [pA]).2 = [100] ∧
    ¬ ((100 : ℚ) ≤ 1) ∧ (100 : ℚ) ≠ 1 := by
  refine ⟨?_, by norm_num, by norm_num⟩
  have h : (exact_match_hashing okHash [pA]).2
      = [round2 ((((0 : ℕ) : ℚ) + 1) / (((1 : ℕ) : ℚ)) * 100)] := rfl
  rw [h]
  have hx : (((0 : ℕ) : ℚ) + 1) / (((1 : ℕ) : ℚ)) * 100 = 100 := by norm_num
  rw [hx, round2_hundred]

/-- C3 (amended): for a non-empty file list on which every fingerprint
succeeds, a progress value `round((i + 1) / total * 100, 2)` is emitted
after each file by `exact_match_hashing` and `perceptual_hashing`; the
emitted values lie in `[0, 100]`, are non-decreasing, and the final value is
`100` (the code works in percentage points, not in `[0, 1]` fractions). -/
theorem progress_values_amended (hash : HashFn) (files : List FilePath')
    (hne : files ≠ []) (hok : ∀ f ∈ files, hashOk hash f = true) :
    ∃ ps : List ℚ,
      (exact_match_hashing hash files).2 = ps ∧
      (perceptual_hashing hash files).2 = ps ∧
      ps = (List.range files.length).map
        (fun j => round2 ((((j : ℕ) : ℚ) + 1) / ((files.length : ℕ) : ℚ) * 100)) ∧
      (∀ q ∈ ps, 0 ≤ q ∧ q ≤ 100) ∧
      ps.Pairwise (· ≤ ·) ∧
      ps.getLast? = some 100 := by
  have hn : files.length ≠ 0 := fun hc => hne (List.length_eq_zero.mp hc)
  have hnpos : (0 : ℚ) < (files.length : ℚ) := by
    exact_mod_cast Nat.pos_of_ne_zero hn
  have hE : (exact_match_hashing hash files).2
      = (List.range files.length).map
          (fun j => round2 ((((j : ℕ) : ℚ) + 1) / ((files.length : ℕ) : ℚ) * 100)) := by
    have h := hashLoopAbort_emits hash files.length files 0 [] hok
    rw [exact_match_hashing, h]
    refine List.map_congr_left ?_
    intro j _
    congr 1
    push_cast
    ring
  have harg_nonneg : ∀ j : ℕ,
      (0 : ℚ) ≤ (((j : ℕ) : ℚ) + 1) / ((files.length : ℕ) : ℚ) * 100 := by
    intro j
    have h1 : (0 : ℚ) ≤ ((j : ℚ) + 1) := by positivity
    have h2 : (0 : ℚ) ≤ ((j : ℚ) + 1) / (files.length : ℚ) :=
      div_nonneg h1 hnpos.le
    linarith
  have harg_le : ∀ j : ℕ, j < files.length →
      (((j : ℕ) : ℚ) + 1) / ((files.length : ℕ) : ℚ) * 100 ≤ 100 := by
    intro j hj
    have h1 : ((j : ℚ) + 1) ≤ (files.length : ℚ) := by
      exact_mod_cast Nat.succ_le_of_lt hj
    have h2 : ((j : ℚ) + 1) / (files.length : ℚ) ≤ 1 :=
      (div_le_one hnpos).mpr h1
    linarith
  refine ⟨_, hE, hE, rfl, ?_, ?_, ?_⟩
  · intro q hq
    rw [List.mem_map] at hq
    obtain ⟨j, hj, rfl⟩ := hq
    rw [List.mem_range] at hj
    constructor
    · exact round2_nonneg (harg_nonneg j)
    · exact le_of_le_of_eq (round2_mono (harg_le j hj)) round2_hundred
  · rw [List.pairwise_map]
    refine (List.pairwise_lt_range files.length).imp ?_
    intro a b hab
    refine round2_mono ?_
    have h1 : ((a : ℚ) + 1) ≤ ((b : ℚ) + 1) := by
      have : (a : ℚ) ≤ (b : ℚ) := by exact_mod_cast hab.le
      linarith
    have h2 : ((a : ℚ) + 1) / (files.length : ℚ) ≤ ((b : ℚ) + 1) / (files.length : ℚ) :=
      (div_le_div_iff_of_pos_right hnpos).mpr h1
    linarith [h2]
  · obtain ⟨m, hm⟩ := Nat.exists_eq_succ_of_ne_zero hn
    rw [hm, List.range_succ, List.map_append]
    simp only [List.map_cons, List.map_nil, List.getLast?_concat]
    congr 1
    have hms : ((m : ℚ) + 1) ≠ 0 := by positivity
    have hx : (((m : ℕ) : ℚ) + 1) / ((Nat.succ m : ℕ) : ℚ) * 100 = 100 := by
      push_cast
      rw [div_self hms, one_mul]
    rw [hx, round2_hundred]

/-- C5: `execute_search` fails with the configuration error exactly when the
source equals the destination or either path is not a directory; in all
those cases nothing is enumerated, no worker is started (no file is
fingerprinted or moved) and the orchestrator stays idle — the error carries
no `ScanStart`. -/
theorem execute_search_invalid_configuration_iff
    (isDir isFile : FilePath' → Bool) (listing : List PathName) (src dest : FilePath') :
    execute_search isDir isFile listing src dest = .error .invalidConfiguration ↔
      (src = dest ∨ isDir src = false ∨ isDir dest = false) := by
  simp only [execute_search]
  split_ifs with hcond hemp
  · simp only [Bool.and_eq_true, decide_eq_true_eq] at hcond
    obtain ⟨⟨hs, hd⟩, hne⟩ := hcond
    constructor
    · intro h
      simp at h
    · rintro (h | h | h)
      · exact absurd h.symm hne
      · rw [hs] at h
        exact Bool.noConfusion h
      · rw [hd] at h
        exact Bool.noConfusion h
  · simp only [Bool.and_eq_true, decide_eq_true_eq] at hcond
    obtain ⟨⟨hs, hd⟩, hne⟩ := hcond
    constructor
    · intro h
      simp at h
    · rintro (h | h | h)
      · exact absurd h.symm hne
      · rw [hs] at h
        exact Bool.noConfusion h
      · rw [hd] at h
        exact Bool.noConfusion h
  · constructor
    · intro _
      by_cases hs : isDir src = true
      · by_cases hd : isDir dest = true
        · have hde : dest = src := by
            by_contra hne
            exact hcond (by simp [hs, hd, hne])
          exact Or.inl hde.symm
        · exact Or.inr (Or.inr (Bool.eq_false_iff.mpr hd))
      · exact Or.inr (Or.inl (Bool.eq_false_iff.mpr hs))
    · intro _
      trivial

/-! ### File enumeration (C6) -/

theorem suffix_to_ext {m ext : PathName} (h : ('.' :: ext) <:+ m) (hdot : '.' ∉ ext) :
    extensionOf m = some ext := by
  obtain ⟨u, hu⟩ := h
  have hmem : '.' ∈ m := by
    rw [← hu]
    exact List.mem_append_right u (by simp)
  have hrev : m.reverse = ext.reverse ++ ('.' :: u.reverse) := by
    rw [← hu, List.reverse_append, List.reverse_cons, List.append_assoc,
      List.singleton_append]
  have htw : m.reverse.takeWhile (fun c => c != '.') = ext.reverse := by
    rw [hrev, List.takeWhile_append_of_pos ?_, List.takeWhile_cons]
    · simp
    · intro a ha
      rw [List.mem_reverse] at ha
      have : a ≠ '.' := fun he => hdot (he ▸ ha)
      simpa using this
  rw [extensionOf, if_pos hmem, htw, List.reverse_reverse]

theorem ext_to_suffix {m ext : PathName} (h : extensionOf m = some ext) :
    ('.' :: ext) <:+ m := by
  rw [extensionOf] at h
  by_cases hmem : '.' ∈ m
  · rw [if_pos hmem] at h
    injection h with h
    have hdw : m.reverse.dropWhile (fun c => c != '.') ≠ [] := by
      intro hc
      have hsplit := List.takeWhile_append_dropWhile (fun c => c != '.') m.reverse
      rw [hc, List.append_nil] at hsplit
      have : '.' ∈ m.reverse.takeWhile (fun c => c != '.') := by
        rw [hsplit, List.mem_reverse]
        exact hmem
      have hp := List.mem_takeWhile_imp this
      simp at hp
    have hhead : (((m.reverse.dropWhile (fun c => c != '.')).head hdw) != '.') = false :=
      List.head_dropWhile_not (fun c => c != '.') m.reverse hdw
    have hheaddot : (m.reverse.dropWhile (fun c => c != '.')).head hdw = '.' := by
      simpa using hhead
    have hsplit := List.takeWhile_append_dropWhile (fun c => c != '.') m.reverse
    obtain ⟨hd, tl, hcons⟩ : ∃ hd tl, m.reverse.dropWhile (fun c => c != '.') = hd :: tl := by
      cases hdk : m.reverse.dropWhile (fun c => c != '.') with
      | nil => exact absurd hdk hdw
      | cons hd tl => exact ⟨hd, tl, rfl⟩
    have hhd : hd = '.' := by
      rw [← hheaddot]
      simp [hcons]
    subst hhd
    rw [hcons] at hsplit
    refine ⟨tl.reverse, ?_⟩
    have hm : m = (m.reverse.takeWhile (fun c => c != '.') ++ '.' :: tl).reverse := by
      rw [hsplit, List.reverse_reverse]
    rw [hm, List.reverse_append, List.reverse_cons, ← h]
    simp
  · rw [if_neg hmem] at h
    exact Option.noConfusion h

theorem allowedExts_no_dot : ∀ e ∈ allowedExts, '.' ∉ e := by decide

theorem endswithAllowed_iff (n : PathName) :
    endswithAllowed n = true ↔
      ∃ e ∈ allowedExts, extensionOf (lowerName n) = some e := by
  rw [endswithAllowed, List.any_eq_true]
  constructor
  · rintro ⟨s, hs, hsuf⟩
    rw [allowedSuffixes, List.mem_map] at hs
    obtain ⟨e, he, rfl⟩ := hs
    rw [decide_eq_true_eq] at hsuf
    exact ⟨e, he, suffix_to_ext hsuf (allowedExts_no_dot e he)⟩
  · rintro ⟨e, he, hext⟩
    refine ⟨'.' :: e, ?_, ?_⟩
    · rw [allowedSuffixes, List.mem_map]
      exact ⟨e, he, rfl⟩
    · rw [decide_eq_true_eq]
      exact ext_to_suffix hext

/-- C6: `load_file_paths` returns exactly the regular files directly inside
the source directory whose (case-insensitively compared) extension is one of
png, jpg, jpeg, bmp, gif, tiff — every result is the join of the source path
with a name from the directory listing, so no subdirectory is ever entered —
and when no entry matches it returns the empty list rather than an error. -/
theorem load_file_paths_characterization
    (isFile : FilePath' → Bool) (listing : List PathName) (src : FilePath') :
    (∀ p, p ∈ load_file_paths isFile listing src ↔
      ∃ name ∈ listing, p = src ++ [name] ∧ isFile (src ++ [name]) = true ∧
        ∃ e ∈ allowedExts, extensionOf (lowerName name) = some e) ∧
    ((∀ name ∈ listing, ¬(isFile (src ++ [name]) = true ∧
        endswithAllowed name = true)) →
      load_file_paths isFile listing src = []) := by
  constructor
  · intro p
    rw [load_file_paths, List.mem_map]
    constructor
    · rintro ⟨name, hmem, rfl⟩
      rw [List.mem_filter, List.mem_filter] at hmem
      obtain ⟨⟨hlist, hfile⟩, hext⟩ := hmem
      exact ⟨name, hlist, rfl, hfile, (endswithAllowed_iff name).mp hext⟩
    · rintro ⟨name, hlist, rfl, hfile, hext⟩
      refine ⟨name, ?_, rfl⟩
      rw [List.mem_filter, List.mem_filter]
      exact ⟨⟨hlist, hfile⟩, (endswithAllowed_iff name).mpr hext⟩
  · intro hnone
    rw [load_file_paths]
    have hfil : (listing.filter fun f => isFile (src ++ [f])).filter
        (fun f => endswithAllowed f) = [] := by
      rw [List.filter_eq_nil_iff]
      intro a ha
      rw [List.mem_filter] at ha
      intro hc
      exact hnone a ha.1 ⟨ha.2, hc⟩
    rw [hfil, List.map_nil]

/-! ### Mean-color fingerprint (C7) -/

theorem hexCharVal_hexDigitChar : ∀ d, d < 16 → hexCharVal (hexDigitChar d) = d := by
  decide

theorem hexPairVal_pythonHex02X {n : Nat} (h : n < 256) :
    hexPairVal (pythonHex02X n) = n := by
  rw [pythonHex02X, hexPairVal]
  have h1 : n / 16 < 16 := by omega
  have h2 : n % 16 < 16 := Nat.mod_lt _ (by norm_num)
  rw [hexCharVal_hexDigitChar _ h1, hexCharVal_hexDigitChar _ h2]
  omega

theorem channel_sum_le (f : RGB → Nat) :
    ∀ (img : List (List RGB)), (∀ row ∈ img, ∀ px ∈ row, f px ≤ 255) →
      (img.map fun row => (row.map f).sum).sum ≤ 255 * pixelCount img := by
  intro img
  induction img with
  | nil =>
    intro _
    simp [pixelCount]
  | cons row rest ih =>
    intro hb
    have hrow : (row.map f).sum ≤ 255 * row.length := by
      have hle := List.sum_le_card_nsmul (row.map f) 255 ?_
      · simpa [smul_eq_mul, Nat.mul_comm, List.length_map] using hle
      · intro x hx
        rw [List.mem_map] at hx
        obtain ⟨px, hpx, rfl⟩ := hx
        exact hb row (by simp) px hpx
    have hrest := ih fun r hr px hpx => hb r (List.mem_cons_of_mem _ hr) px hpx
    have hpc : pixelCount (row :: rest) = row.length + pixelCount rest := by
      simp [pixelCount]
    rw [List.map_cons, List.sum_cons, hpc]
    omega

/-- C7: on the 64×64 resized canvas of 8-bit pixels, the mean-color
fingerprint is the concatenation of the three per-channel means — each the
channel sum over all 64×64 pixels divided (with truncation) by 4096 — every
mean is at most 255 and is rendered as exactly two uppercase hexadecimal
digits, so the fingerprint has exactly 6 characters and its three 2-digit
chunks decode back to the channel means. -/
theorem calculate_mean_color_hash_spec (img : List (List RGB))
    (h64 : img.length = 64) (hrow : ∀ row ∈ img, row.length = 64)
    (hb : ∀ row ∈ img, ∀ px ∈ row, px.r ≤ 255 ∧ px.g ≤ 255 ∧ px.b ≤ 255) :
    pixelCount img = 64 * 64 ∧
    calculate_mean_color_hash img
      = pythonHex02X (sumR img / (64 * 64)) ++ pythonHex02X (sumG img / (64 * 64))
        ++ pythonHex02X (sumB img / (64 * 64)) ∧
    (calculate_mean_color_hash img).length = 6 ∧
    sumR img / (64 * 64) ≤ 255 ∧ sumG img / (64 * 64) ≤ 255 ∧
    sumB img / (64 * 64) ≤ 255 ∧
    hexPairVal ((calculate_mean_color_hash img).take 2) = sumR img / (64 * 64) ∧
    hexPairVal (((calculate_mean_color_hash img).drop 2).take 2) = sumG img / (64 * 64) ∧
    hexPairVal ((calculate_mean_color_hash img).drop 4) = sumB img / (64 * 64) := by
  have hpc : pixelCount img = 64 * 64 := by
    have hmap : img.map List.length = List.replicate img.length 64 := by
      have : ∀ b ∈ img.map List.length, b = 64 := by
        intro b hbmem
        rw [List.mem_map] at hbmem
        obtain ⟨row, hrmem, rfl⟩ := hbmem
        exact hrow row hrmem
      have := List.eq_replicate_of_mem this
      simpa using this
    rw [pixelCount, hmap, List.sum_replicate, h64]
    simp
  have hrle : sumR img ≤ 255 * (64 * 64) := by
    have := channel_sum_le RGB.r img fun r hr px hp => (hb r hr px hp).1
    rw [hpc] at this
    exact this
  have hgle : sumG img ≤ 255 * (64 * 64) := by
    have := channel_sum_le RGB.g img fun r hr px hp => (hb r hr px hp).2.1
    rw [hpc] at this
    exact this
  have hble : sumB img ≤ 255 * (64 * 64) := by
    have := channel_sum_le RGB.b img fun r hr px hp => (hb r hr px hp).2.2
    rw [hpc] at this
    exact this
  have hrdiv : sumR img / (64 * 64) ≤ 255 := by omega
  have hgdiv : sumG img / (64 * 64) ≤ 255 := by omega
  have hbdiv : sumB img / (64 * 64) ≤ 255 := by omega
  have heq : calculate_mean_color_hash img
      = pythonHex02X (sumR img / (64 * 64)) ++ pythonHex02X (sumG img / (64 * 64))
        ++ pythonHex02X (sumB img / (64 * 64)) := by
    rw [calculate_mean_color_hash, hpc]
  have htake : (calculate_mean_color_hash img).take 2
      = pythonHex02X (sumR img / (64 * 64)) := by
    rw [heq, pythonHex02X, pythonHex02X, pythonHex02X]
    rfl
  have hdrop2 : ((calculate_mean_color_hash img).drop 2).take 2
      = pythonHex02X (sumG img / (64 * 64)) := by
    rw [heq, pythonHex02X, pythonHex02X, pythonHex02X]
    rfl
  have hdrop4 : (calculate_mean_color_hash img).drop 4
      = pythonHex02X (sumB img / (64 * 64)) := by
    rw [heq, pythonHex02X, pythonHex02X, pythonHex02X]
    rfl
  refine ⟨hpc, heq, ?_, hrdiv, hgdiv, hbdiv, ?_, ?_, ?_⟩
  · rw [heq, pythonHex02X, pythonHex02X, pythonHex02X]
    rfl
  · rw [htake]
    exact hexPairVal_pythonHex02X (by omega)
  · rw [hdrop2]
    exact hexPairVal_pythonHex02X (by omega)
  · rw [hdrop4]
    exact hexPairVal_pythonHex02X (by omega)

/-- Witness for C7 at a concrete uniform 64×64 canvas. -/
theorem calculate_mean_color_hash_spec_witness :
    wCanvas.length = 64 ∧ (∀ row ∈ wCanvas, row.length = 64) ∧
    (∀ row ∈ wCanvas, ∀ px ∈ row, px.r ≤ 255 ∧ px.g ≤ 255 ∧ px.b ≤ 255) ∧
    (pixelCount wCanvas = 64 * 64 ∧
      calculate_mean_color_hash wCanvas
        = pythonHex02X (sumR wCanvas / (64 * 64))
          ++ pythonHex02X (sumG wCanvas / (64 * 64))
          ++ pythonHex02X (sumB wCanvas / (64 * 64)) ∧
      (calculate_mean_color_hash wCanvas).length = 6 ∧
      sumR wCanvas / (64 * 64) ≤ 255 ∧ sumG wCanvas / (64 * 64) ≤ 255 ∧
      sumB wCanvas / (64 * 64) ≤ 255 ∧
      hexPairVal ((calculate_mean_color_hash wCanvas).take 2)
        = sumR wCanvas / (64 * 64) ∧
      hexPairVal (((calculate_mean_color_hash wCanvas).drop 2).take 2)
        = sumG wCanvas / (64 * 64) ∧
      hexPairVal ((calculate_mean_color_hash wCanvas).drop 4)
        = sumB wCanvas / (64 * 64)) := by
  have h1 : wCanvas.length = 64 := by simp [wCanvas]
  have h2 : ∀ row ∈ wCanvas, row.length = 64 := by
    intro row hr
    rw [List.eq_of_mem_replicate hr]
    simp
  have h3 : ∀ row ∈ wCanvas, ∀ px ∈ row, px.r ≤ 255 ∧ px.g ≤ 255 ∧ px.b ≤ 255 := by
    intro row hr px hp
    rw [List.eq_of_mem_replicate hr] at hp
    rw [List.eq_of_mem_replicate hp]
    exact ⟨by norm_num, by norm_num, by norm_num⟩
  exact ⟨h1, h2, h3, calculate_mean_color_hash_spec wCanvas h1 h2 h3⟩

/-- Witness for the amended C3 at a concrete single-file scan. -/
theorem progress_values_amended_witness :
    ([pA] : List FilePath') ≠ [] ∧
    (∀ f ∈ ([pA] : List FilePath'), hashOk okHash f = true) ∧
    ∃ ps : List ℚ,
      (exact_match_hashing okHash [pA]).2 = ps ∧
      (perceptual_hashing okHash [pA]).2 = ps ∧
      ps = (List.range ([pA] : List FilePath').length).map
        (fun j => round2 ((((j : ℕ) : ℚ) + 1)
          / ((([pA] : List FilePath').length : ℕ) : ℚ) * 100)) ∧
      (∀ q ∈ ps, 0 ≤ q ∧ q ≤ 100) ∧
      ps.Pairwise (· ≤ ·) ∧
      ps.getLast? = some 100 :=
  ⟨by simp, by decide,
   progress_values_amended okHash [pA] (by simp) (by decide)⟩

end ImageDup
